import Mathlib

/-!
Verification development for the `iterator` Go package: a slice-backed
iterator with a cursor (`nextIndex`), a list of lazily applied operation
closures (map / filter / unique), raw stepping (`Next`, `ForEach`,
`Reduce`, the channel family) and pipeline evaluation (`Collect`).

The Go code is embedded shallowly: slices become `List`, the mutable
`iter` struct becomes a value threaded through each operation, closures
with captured mutable state (the `Unique` seen map) become operation
values that return their updated state, and Go runtime failures
(panics) are modelled with `Except` in a parallel failure-aware model.
-/

namespace Iterator

variable {T K O S : Type}

/-- Model of the package's `maybe` struct: the in-flight pair of a keep
flag (`ok`) and the current element value (`val`). -/
structure maybe (T : Type) where
  ok : Bool
  val : T

/-- Deep embedding of one registered operation closure.
`mapOp f` is the closure appended by `Map` (sets `m.val := fn m.val`);
`filterOp p` is the closure appended by `Filter` (sets `m.ok := fn m.val`);
`uniqueOp key seen` is the stateful closure `Unique` builds and registers via
`Filter`: `seen` models the key set of the captured seen map, and `key` models
what the closure inserts and looks up — the element itself in the plain case,
or the dereferenced pointee when `DerefPointers` applies.  Go mutates the
captured map in place; here applying an operation returns the updated
operation. -/
inductive Op (T K : Type) where
  | mapOp (f : T → T)
  | filterOp (p : T → Bool)
  | uniqueOp (key : T → K) (seen : List K)

/-- Model of the `iter` struct.  The mutex `mu` has no sequential content and
is elided; the `nextFunc` field is represented by the `threadSafe` flag
(`Next` dispatches to `synchronizedNext` when it is set and to `next`
otherwise, exactly as `From` assigns `nextFunc`); `operationsCap` records the
capacity passed to `make` for the operations slice, which a `List` cannot
carry.  `O` is the type of one registered operation: `Op T K` in the pure
model, `OpE T K` in the failure-aware model. -/
structure iter (T O : Type) where
  threadSafe : Bool
  nextIndex : Nat
  source : List T
  operations : List O
  operationsCap : Int

/-- Model of the `fromOptions` struct. -/
structure fromOptions where
  copySource : Bool
  threadSafe : Bool
  bufferLen : Int

/-- Model of the `CopySource` option constructor. -/
def CopySource (shouldCopy : Bool) : fromOptions → fromOptions :=
  fun opts => { opts with copySource := shouldCopy }

/-- Model of the `ThreadSafe` option constructor. -/
def ThreadSafe (shouldLock : Bool) : fromOptions → fromOptions :=
  fun opts => { opts with threadSafe := shouldLock }

/-- Model of the `BufferLen` option constructor. -/
def BufferLen (bufferLen : Int) : fromOptions → fromOptions :=
  fun opts => { opts with bufferLen := bufferLen }

/-- Model of the `uniqueOptions` struct. -/
structure uniqueOptions where
  deref : Bool

/-- Model of the `DerefPointers` option constructor. -/
def DerefPointers (shouldDeref : Bool) : uniqueOptions → uniqueOptions :=
  fun opts => { opts with deref := shouldDeref }

/-- Model of the `intoChannelOptions` struct. -/
structure intoChannelOptions where
  closeChannel : Bool

/-- Model of the `CloseChannel` option constructor. -/
def CloseChannel (shouldClose : Bool) : intoChannelOptions → intoChannelOptions :=
  fun opts => { opts with closeChannel := shouldClose }

/-- The options value `From` starts with: the zero value of `fromOptions`
after the preset `options.bufferLen = 64`. -/
def defaultFromOptions : fromOptions :=
  { copySource := false, threadSafe := false, bufferLen := 64 }

/-- Model of `From`.  The option functions are applied left to right over the
preset defaults.  Copying the source slice is the identity on immutable
`List` values, so both branches of `copySource` coincide here (aliasing is
not modelled).  The `make` of the operations slice can panic on a negative
capacity; that is modelled by `FromE` below, and `From` is its result when
the allocation succeeds (lemma `FromE_eq_ok`). -/
def From (source : List T) (opts : List (fromOptions → fromOptions)) : iter T O :=
  let options := opts.foldl (fun o f => f o) defaultFromOptions
  { threadSafe := options.threadSafe
    nextIndex := 0
    source := source
    operations := []
    operationsCap := options.bufferLen }

/-- Model of the package-level `next`: when the cursor is past the end,
return the zero value of the element type (`default`) and `false`, leaving
the iterator unchanged; otherwise return the element at `nextIndex` with
`true` and advance the cursor by one. -/
def next [Inhabited T] (it : iter T O) : (T × Bool) × iter T O :=
  if h : it.source.length ≤ it.nextIndex then ((default, false), it)
  else ((it.source.get ⟨it.nextIndex, Nat.lt_of_not_le h⟩, true),
    { it with nextIndex := it.nextIndex + 1 })

/-- Model of `synchronizedNext`: takes the mutex and calls `next`; in the
sequential model the lock has no further effect. -/
def synchronizedNext [Inhabited T] (it : iter T O) : (T × Bool) × iter T O :=
  next it

/-- Model of the `Next` method: calls the `nextFunc` selected by `From`. -/
def Next [Inhabited T] (it : iter T O) : (T × Bool) × iter T O :=
  if it.threadSafe then synchronizedNext it else next it

theorem Next_eq_next [Inhabited T] (it : iter T O) : Next it = next it := by
  unfold Next synchronizedNext
  exact ite_self _

theorem next_measure [Inhabited T] {it : iter T O} (h : ((Next it).1).2 = true) :
    (Next it).2.source.length - (Next it).2.nextIndex < it.source.length - it.nextIndex := by
  rw [Next_eq_next] at h ⊢
  unfold next at h ⊢
  by_cases hle : it.source.length ≤ it.nextIndex
  · rw [dif_pos hle] at h
    exact absurd h (by simp)
  · rw [dif_neg hle] at h ⊢
    simp only
    omega

/-- Model of `ForEach`: repeatedly call `Next` until it reports exhaustion,
feeding each value to the callback.  The Go callback works by side effect on
its captured environment; that environment is modelled as explicit state
`S`. -/
def ForEach [Inhabited T] (fn : S → T → S) (it : iter T O) (s : S) : iter T O × S :=
  if h : ((Next it).1).2 = true then
    ForEach fn (Next it).2 (fn s ((Next it).1).1)
  else ((Next it).2, s)
termination_by it.source.length - it.nextIndex
decreasing_by exact next_measure h

theorem ForEach_eq_aux [Inhabited T] (fn : S → T → S) :
    ∀ (n : Nat) (it : iter T O) (s : S), it.source.length - it.nextIndex = n →
      it.nextIndex ≤ it.source.length →
      ForEach fn it s =
        ({ it with nextIndex := it.source.length }, (it.source.drop it.nextIndex).foldl fn s) := by
  intro n
  induction n with
  | zero =>
    intro it s hn hle
    have hidx : it.nextIndex = it.source.length := by omega
    have hfalse : ((Next it).1).2 = false := by
      rw [Next_eq_next]; unfold next; rw [dif_pos (by omega)]
    have hsame : (Next it).2 = it := by
      rw [Next_eq_next]; unfold next; rw [dif_pos (by omega)]
    rw [ForEach, dif_neg (by simp [hfalse]), hsame, hidx]
    rw [List.drop_length, List.foldl_nil, ← hidx]
  | succ n ih =>
    intro it s hn hle
    have hlt : it.nextIndex < it.source.length := by omega
    have htrue : ((Next it).1).2 = true := by
      rw [Next_eq_next]; unfold next; rw [dif_neg (by omega)]
    have hnext : Next it =
        ((it.source.get ⟨it.nextIndex, hlt⟩, true), { it with nextIndex := it.nextIndex + 1 }) := by
      rw [Next_eq_next]; unfold next; rw [dif_neg (by omega)]
    rw [ForEach, dif_pos htrue, hnext]
    rw [ih { it with nextIndex := it.nextIndex + 1 } _ (by simp; omega) (by simp; omega)]
    rw [List.drop_eq_getElem_cons hlt, List.foldl_cons]
    simp [List.get_eq_getElem]

theorem ForEach_eq [Inhabited T] (fn : S → T → S) (it : iter T O) (s : S)
    (h : it.nextIndex ≤ it.source.length) :
    ForEach fn it s =
      ({ it with nextIndex := it.source.length }, (it.source.drop it.nextIndex).foldl fn s) :=
  ForEach_eq_aux fn _ it s rfl h

/-- Model of applying one registered operation closure to the in-flight pair.
The returned operation carries the closure's updated captured state (only
`uniqueOp` has any: inserting into the seen map). -/
def applyOp [BEq K] (op : Op T K) (m : maybe T) : maybe T × Op T K :=
  match op with
  | .mapOp f => ({ m with val := f m.val }, .mapOp f)
  | .filterOp p => ({ m with ok := p m.val }, .filterOp p)
  | .uniqueOp key seen =>
    if seen.contains (key m.val) then ({ m with ok := false }, .uniqueOp key seen)
    else ({ m with ok := true }, .uniqueOp key (key m.val :: seen))

/-- Model of the inner loop of `Collect`: run the registered operations in
order on the in-flight pair and stop right after the first operation that
leaves `ok = false`; the operations after the stop keep their state. -/
def runOps [BEq K] (ops : List (Op T K)) (m : maybe T) : maybe T × List (Op T K) :=
  match ops with
  | [] => (m, [])
  | op :: rest =>
    let r := applyOp op m
    if r.1.ok then
      let r2 := runOps rest r.1
      (r2.1, r.2 :: r2.2)
    else (r.1, r.2 :: rest)

/-- Model of the callback `Collect` passes to `ForEach`: reinitialize the
shared in-flight pair to (keep, current element), run the operation loop, and
append the surviving value.  State is the pair (operations with their captured
state, result accumulator).  The trailing `mb.ok = false` of the Go body is
overwritten before the next read and has no modelled effect. -/
def collectStep [BEq K] (st : List (Op T K) × List T) (val : T) : List (Op T K) × List T :=
  let r := runOps st.1 { ok := true, val := val }
  (r.2, if r.1.ok then st.2 ++ [r.1.val] else st.2)

/-- Model of `Collect`: drain the remaining raw elements through `ForEach`,
running each through the operation pipeline; the iterator keeps the updated
operation states (Go shares them through the captured maps). -/
def Collect [Inhabited T] [BEq K] (it : iter T (Op T K)) : List T × iter T (Op T K) :=
  let r := ForEach collectStep it (it.operations, ([] : List T))
  (r.2.2, { r.1 with operations := r.2.1 })

/-- Model of `Map`: append the map closure to the operations. -/
def Map (it : iter T (Op T K)) (fn : T → T) : iter T (Op T K) :=
  { it with operations := it.operations ++ [Op.mapOp fn] }

/-- Model of `Filter`: append the filter closure to the operations. -/
def Filter (it : iter T (Op T K)) (fn : T → Bool) : iter T (Op T K) :=
  { it with operations := it.operations ++ [Op.filterOp fn] }

/-- The zero value of `uniqueOptions`, as built by `new(uniqueOptions)`. -/
def defaultUniqueOptions : uniqueOptions := { deref := false }

/-- Model of `Unique`.  `isPtrType` models the runtime type check on the Go
side (whether the element type reflects as a pointer kind); it is a fact of
the element type, supplied at instantiation.  `plainKey` models keying the
seen map by the element value itself and `derefKey` models keying it by the
dereferenced pointee.  The seen map is created empty here, at call time, and
captured in the single filter operation this registers (Go registers it via
`Filter`). -/
def Unique (it : iter T (Op T K)) (opts : List (uniqueOptions → uniqueOptions))
    (isPtrType : Bool) (plainKey derefKey : T → K) : iter T (Op T K) :=
  let options := opts.foldl (fun o f => f o) defaultUniqueOptions
  let key := if options.deref && isPtrType then derefKey else plainKey
  { it with operations := it.operations ++ [Op.uniqueOp key []] }

/-- Model of `Reduce`: fold the caller's function over the remaining raw
elements via `ForEach`, starting from `initial`.  The registered operations
are never consulted. -/
def Reduce [Inhabited T] (it : iter T O) (fn : T → T → T) (initial : T) : T × iter T O :=
  let r := ForEach (fun acc val => fn acc val) it initial
  (r.2, r.1)

/-- Model of `Reset`: rewind the cursor; nothing else changes. -/
def Reset (it : iter T O) : iter T O :=
  { it with nextIndex := 0 }

/-- Model of a Go channel as observed by this package: its capacity, the
ordered elements pushed into it, and whether it has been closed.  Scheduling
and blocking are outside the model: the background delivery goroutine is
modelled by its completed effect on the channel. -/
structure Chan (T : Type) where
  capacity : Nat
  buffer : List T
  closed : Bool

/-- The zero value of `intoChannelOptions`, as built by
`new(intoChannelOptions)`. -/
def defaultIntoChannelOptions : intoChannelOptions := { closeChannel := false }

/-- Model of `IntoChannel`: the spawned goroutine drains the remaining raw
elements via `ForEach`, sending each into the caller's channel in order, and
closes the channel at the end exactly when the `CloseChannel` option was set.
The goroutine is modelled by its completed effect. -/
def IntoChannel [Inhabited T] (it : iter T O) (ch : Chan T)
    (opts : List (intoChannelOptions → intoChannelOptions)) : Chan T × iter T O :=
  let icos := opts.foldl (fun o f => f o) defaultIntoChannelOptions
  let r := ForEach (fun buf val => buf ++ [val]) it ch.buffer
  ({ ch with buffer := r.2, closed := if icos.closeChannel then true else ch.closed }, r.1)

/-- Model of `Channel`: allocate a channel whose capacity is the source
length and delegate to `IntoChannel` with `CloseChannel true`. -/
def Channel [Inhabited T] (it : iter T O) : Chan T × iter T O :=
  IntoChannel it { capacity := it.source.length, buffer := [], closed := false } [CloseChannel true]

/-- Specification-side description of one `Collect` pass over a list of raw
elements, following the claim's wording: each element is initialized with
keep set, passed through the steps in registration order with a short-circuit
at the first filter that drops it, and appended to the output exactly when
keep survives; the output keeps the element order and the step states thread
through element by element. -/
def collectList [BEq K] (ops : List (Op T K)) : List T → List T × List (Op T K)
  | [] => ([], ops)
  | x :: xs =>
    let r := runOps ops { ok := true, val := x }
    let rest := collectList r.2 xs
    (if r.1.ok then r.1.val :: rest.1 else rest.1, rest.2)

theorem foldl_collectStep [BEq K] :
    ∀ (l : List T) (ops : List (Op T K)) (acc : List T),
      l.foldl collectStep (ops, acc) = ((collectList ops l).2, acc ++ (collectList ops l).1) := by
  intro l
  induction l with
  | nil => intro ops acc; simp [collectList]
  | cons x xs ih =>
    intro ops acc
    rw [List.foldl_cons]
    have hstep : collectStep (ops, acc) x =
        ((runOps ops { ok := true, val := x }).2,
         if (runOps ops { ok := true, val := x }).1.ok then
           acc ++ [(runOps ops { ok := true, val := x }).1.val]
         else acc) := rfl
    rw [hstep]
    cases hok : (runOps ops { ok := true, val := x }).1.ok
    · rw [if_neg (by simp [hok]), ih]
      simp [collectList, hok]
    · rw [if_pos (by simp [hok]), ih]
      simp [collectList, hok]

theorem Collect_eq [Inhabited T] [BEq K] (it : iter T (Op T K))
    (h : it.nextIndex ≤ it.source.length) :
    Collect it =
      ((collectList it.operations (it.source.drop it.nextIndex)).1,
       { it with nextIndex := it.source.length,
                 operations := (collectList it.operations (it.source.drop it.nextIndex)).2 }) := by
  unfold Collect
  rw [ForEach_eq _ it _ h, foldl_collectStep]
  simp

theorem Reduce_eq [Inhabited T] (it : iter T O) (fn : T → T → T) (initial : T)
    (h : it.nextIndex ≤ it.source.length) :
    Reduce it fn initial =
      ((it.source.drop it.nextIndex).foldl fn initial,
       { it with nextIndex := it.source.length }) := by
  unfold Reduce
  rw [ForEach_eq _ it _ h]

theorem foldl_push : ∀ (l acc : List T), l.foldl (fun buf val => buf ++ [val]) acc = acc ++ l := by
  intro l
  induction l with
  | nil => intro acc; simp
  | cons x xs ih => intro acc; simp [ih]

theorem IntoChannel_eq [Inhabited T] (it : iter T O) (ch : Chan T)
    (opts : List (intoChannelOptions → intoChannelOptions))
    (h : it.nextIndex ≤ it.source.length) :
    IntoChannel it ch opts =
      ({ ch with buffer := ch.buffer ++ it.source.drop it.nextIndex,
                 closed := if (opts.foldl (fun o f => f o) defaultIntoChannelOptions).closeChannel
                           then true else ch.closed },
       { it with nextIndex := it.source.length }) := by
  unfold IntoChannel
  rw [ForEach_eq _ it _ h, foldl_push]

theorem collectList_nil_ops [BEq K] :
    ∀ l : List T, collectList ([] : List (Op T K)) l = (l, []) := by
  intro l
  induction l with
  | nil => simp [collectList]
  | cons x xs ih => simp [collectList, runOps, ih]

/-- Specification-side first-occurrence deduplication keyed by `key`, starting
from an already-seen key set: an element whose key is in the set is dropped,
any other element is kept and its key recorded — the claim's description of
the `Unique` filter. -/
def dedupBy [BEq K] (key : T → K) (seen : List K) : List T → List T
  | [] => []
  | x :: xs =>
    if seen.contains (key x) then dedupBy key seen xs
    else x :: dedupBy key (key x :: seen) xs

/-- The key set recorded after a full `dedupBy` pass. -/
def seenAfter [BEq K] (key : T → K) (seen : List K) : List T → List K
  | [] => seen
  | x :: xs =>
    if seen.contains (key x) then seenAfter key seen xs
    else seenAfter key (key x :: seen) xs

theorem collectList_uniqueOp [BEq K] (key : T → K) :
    ∀ (l : List T) (seen : List K),
      collectList [Op.uniqueOp key seen] l =
        (dedupBy key seen l, [Op.uniqueOp key (seenAfter key seen l)]) := by
  intro l
  induction l with
  | nil => intro seen; simp [collectList, dedupBy, seenAfter]
  | cons x xs ih =>
    intro seen
    cases hc : seen.contains (key x)
    · have hrun : runOps [Op.uniqueOp key seen] { ok := true, val := x } =
          ({ ok := true, val := x }, [Op.uniqueOp key (key x :: seen)]) := by
        simp [runOps, applyOp, hc]
      simp [collectList, hrun, dedupBy, seenAfter, hc, ih]
    · have hrun : runOps [Op.uniqueOp key seen] { ok := true, val := x } =
          ({ ok := false, val := x }, [Op.uniqueOp key seen]) := by
        simp [runOps, applyOp, hc]
      simp [collectList, hrun, dedupBy, seenAfter, hc, ih]

theorem contains_seenAfter [BEq K] (key : T → K) :
    ∀ (l : List T) (seen : List K) (a : K), seen.contains a = true →
      (seenAfter key seen l).contains a = true := by
  intro l
  induction l with
  | nil => intro seen a h; simpa [seenAfter] using h
  | cons x xs ih =>
    intro seen a h
    unfold seenAfter
    cases hc : seen.contains (key x)
    · rw [if_neg (by simp [hc])]
      exact ih _ _ (by simp [List.contains_cons, h])
    · rw [if_pos (by simp [hc])]
      exact ih _ _ h

theorem mem_key_seenAfter [BEq K] [LawfulBEq K] (key : T → K) :
    ∀ (l : List T) (seen : List K) (x : T), x ∈ l →
      (seenAfter key seen l).contains (key x) = true := by
  intro l
  induction l with
  | nil => intro seen x h; cases h
  | cons y ys ih =>
    intro seen x h
    unfold seenAfter
    rcases List.mem_cons.mp h with heq | hmem
    · subst heq
      cases hc : seen.contains (key x)
      · rw [if_neg (by simp [hc])]
        exact contains_seenAfter key ys _ _ (by simp [List.contains_cons])
      · rw [if_pos (by simp [hc])]
        exact contains_seenAfter key ys _ _ hc
    · cases hc : seen.contains (key y)
      · rw [if_neg (by simp [hc])]
        exact ih _ _ hmem
      · rw [if_pos (by simp [hc])]
        exact ih _ _ hmem

theorem dedupBy_eq_nil [BEq K] (key : T → K) :
    ∀ (l : List T) (seen : List K), (∀ x ∈ l, seen.contains (key x) = true) →
      dedupBy key seen l = [] := by
  intro l
  induction l with
  | nil => intro seen _; simp [dedupBy]
  | cons x xs ih =>
    intro seen h
    unfold dedupBy
    rw [if_pos (by simp [h x (List.mem_cons_self x xs)])]
    exact ih _ (fun y hy => h y (List.mem_cons_of_mem x hy))

/-- C1: `Collect` returns exactly the raw elements from the current position
to the end, each initialized with keep set, passed through the registered
steps in registration order with a short-circuit at the first filter that
drops it, the final in-flight value appended while keep survives, in source
order — that is, `collectList` of the remaining elements; the cursor advances
to the end of the source; with no registered steps the result is the
remaining raw elements unchanged; and a second consecutive `Collect` without
an intervening `Reset` returns an empty sequence. -/
theorem collect_spec [Inhabited T] [BEq K] (it : iter T (Op T K))
    (h : it.nextIndex ≤ it.source.length) :
    (Collect it).1 = (collectList it.operations (it.source.drop it.nextIndex)).1 ∧
    (Collect it).2.nextIndex = it.source.length ∧
    (it.operations = [] → (Collect it).1 = it.source.drop it.nextIndex) ∧
    (Collect (Collect it).2).1 = [] := by
  have hc := Collect_eq it h
  refine ⟨by rw [hc], by rw [hc], ?_, ?_⟩
  · intro hops
    rw [hc]
    simp only [hops, collectList_nil_ops]
  · rw [hc]
    rw [Collect_eq _ (by simp)]
    simp [List.drop_length, collectList]

/-- Witness for C1 at the cursor `From [1, 2, 3]` with no registered steps. -/
theorem collect_spec_witness :
    (Collect (From [1, 2, 3] [] : iter Int (Op Int Int))).1 = [1, 2, 3] :=
  (collect_spec (From [1, 2, 3] [] : iter Int (Op Int Int)) (by decide)).2.2.1 rfl

/-- C2: sequentially, and independently of the thread-safety option, `Next`
returns the element at the cursor with `present = true` and advances the
cursor by one while the cursor is in range; past the end it returns the zero
value of the element type with `present = false` and leaves the iterator
(cursor and registered operations) unchanged, so it is idempotent there; no
registered operation is consulted (the equations hold for every operations
list and leave it untouched). -/
theorem next_spec [Inhabited T] (it : iter T O) :
    (∀ h : it.nextIndex < it.source.length,
        Next it = ((it.source.get ⟨it.nextIndex, h⟩, true),
          { it with nextIndex := it.nextIndex + 1 })) ∧
    (it.source.length ≤ it.nextIndex → Next it = ((default, false), it)) ∧
    Next { it with threadSafe := true } =
      ((Next { it with threadSafe := false }).1,
        { (Next { it with threadSafe := false }).2 with threadSafe := true }) := by
  refine ⟨?_, ?_, ?_⟩
  · intro h
    rw [Next_eq_next]; unfold next; rw [dif_neg (by omega)]
  · intro h
    rw [Next_eq_next]; unfold next; rw [dif_pos h]
  · rw [Next_eq_next, Next_eq_next]; unfold next
    by_cases hle : it.source.length ≤ it.nextIndex
    · rw [dif_pos (by simpa using hle), dif_pos (by simpa using hle)]
    · rw [dif_neg (by simpa using hle), dif_neg (by simpa using hle)]

/-- Witness for C2 at `From [5, 6]`: the first `Next` yields 5 and advances. -/
theorem next_spec_witness :
    Next (From [5, 6] [] : iter Int (Op Int Int)) =
      ((5, true), { (From [5, 6] [] : iter Int (Op Int Int)) with nextIndex := 1 }) :=
  (next_spec (From [5, 6] [] : iter Int (Op Int Int))).1 (by decide)

/-- C5: `Reduce` folds the caller's function over the raw remaining source
elements in order starting from the initial accumulator, and it ignores every
registered operation (its result equals the one with the operations list
emptied). -/
theorem reduce_spec [Inhabited T] (it : iter T O) (fn : T → T → T) (initial : T)
    (h : it.nextIndex ≤ it.source.length) :
    (Reduce it fn initial).1 = (it.source.drop it.nextIndex).foldl fn initial ∧
    (Reduce it fn initial).1 = (Reduce { it with operations := ([] : List O) } fn initial).1 := by
  have h1 := Reduce_eq it fn initial h
  have h2 := Reduce_eq { it with operations := ([] : List O) } fn initial (by simpa using h)
  exact ⟨by rw [h1], by rw [h1, h2]⟩

/-- Witness for C5: source `[1, 2, 3, 4, 5]` with a registered filter, sum
reducer and initial 0 still yields 15. -/
theorem reduce_spec_witness :
    (Reduce (Filter (From [1, 2, 3, 4, 5] [] : iter Int (Op Int Int)) (fun x => decide (x % 2 = 0)))
      (fun acc val => acc + val) 0).1 = 15 := by
  rw [(reduce_spec _ (fun acc val => acc + val) 0 (by decide)).1]
  decide

/-- C8: from position 0, `Channel` allocates a queue with capacity equal to
the source length into which the delivery task (modelled by its completed
effect) pushes exactly the raw source elements in order before closing it;
`IntoChannel` with default options delivers the same elements in order into
the caller's queue and leaves it open, closing it only under
`CloseChannel true`. -/
theorem channel_spec [Inhabited T] (it : iter T O) (ch : Chan T) (h : it.nextIndex = 0) :
    (Channel it).1 = { capacity := it.source.length, buffer := it.source, closed := true } ∧
    (IntoChannel it ch []).1 =
      { capacity := ch.capacity, buffer := ch.buffer ++ it.source, closed := ch.closed } ∧
    (IntoChannel it ch [CloseChannel true]).1 =
      { capacity := ch.capacity, buffer := ch.buffer ++ it.source, closed := true } := by
  have hle : it.nextIndex ≤ it.source.length := by omega
  refine ⟨?_, ?_, ?_⟩
  · unfold Channel
    rw [IntoChannel_eq _ _ _ hle]
    simp [h, defaultIntoChannelOptions, CloseChannel]
  · rw [IntoChannel_eq _ _ _ hle]
    simp [h, defaultIntoChannelOptions]
  · rw [IntoChannel_eq _ _ _ hle]
    simp [h, defaultIntoChannelOptions, CloseChannel]

/-- Witness for C8 at `From [1, 2, 3]`. -/
theorem channel_spec_witness :
    (Channel (From [1, 2, 3] [] : iter Int (Op Int Int))).1 =
      { capacity := 3, buffer := [1, 2, 3], closed := true } :=
  (channel_spec (From [1, 2, 3] [] : iter Int (Op Int Int))
    { capacity := 0, buffer := [], closed := false } rfl).1

/-- C3: on a value element type with its natural (decidable) equality, a
cursor with a single `Unique` step collects, from position 0, to the first
occurrence of each distinct value in first-occurrence order, dropping every
later occurrence of an already-seen value (`dedupBy id` from an empty seen
set); in particular `[1, 2, 3, 2, 1]` collects to `[1, 2, 3]`. -/
theorem unique_spec {T : Type} [DecidableEq T] [Inhabited T] (l : List T) :
    (Collect (Unique (From l [] : iter T (Op T T)) [] false id id)).1 = dedupBy id [] l ∧
    (Collect (Unique (From [1, 2, 3, 2, 1] [] : iter Int (Op Int Int)) [] false id id)).1
      = [1, 2, 3] := by
  constructor
  · rw [Collect_eq _ (Nat.zero_le _)]
    show (collectList [Op.uniqueOp (id : T → T) []] l).1 = dedupBy id [] l
    rw [collectList_uniqueOp]
  · rw [Collect_eq _ (by decide)]
    decide

/-- C4: the seen set of a `Unique` step is created once, at `Unique` call
time (the step is registered with an empty seen set), and persists across
`Reset` and across repeated evaluations of the same cursor: `Reset` leaves
the registered operations and their state intact, and after a full `Collect`
followed by `Reset`, a second `Collect` drops every element recorded in the
first pass — on the unchanged source it returns an empty result instead of
re-running deduplication from scratch. -/
theorem unique_seen_persists {T : Type} [DecidableEq T] [Inhabited T] (l : List T) :
    (Unique (From l [] : iter T (Op T T)) [] false id id).operations
      = [Op.uniqueOp id []] ∧
    (∀ it : iter T (Op T T), (Reset it).operations = it.operations) ∧
    (Collect (Reset (Collect (Unique (From l [] : iter T (Op T T)) [] false id id)).2)).1
      = [] := by
  refine ⟨rfl, fun it => rfl, ?_⟩
  rw [Collect_eq _ (Nat.zero_le _)]
  rw [Collect_eq _ (Nat.zero_le _)]
  show (collectList (collectList [Op.uniqueOp (id : T → T) []] l).2 l).1 = []
  rw [collectList_uniqueOp id l []]
  show (collectList [Op.uniqueOp (id : T → T) (seenAfter id [] l)] l).1 = []
  rw [collectList_uniqueOp id l (seenAfter id [] l)]
  show dedupBy (id : T → T) (seenAfter id [] l) l = []
  exact dedupBy_eq_nil id l _ (fun x hx => mem_key_seenAfter id l [] x hx)

theorem collectList_filter_fusion [BEq K] (p1 p2 : T → Bool) :
    ∀ l : List T,
      ((collectList [Op.filterOp p1, Op.filterOp p2] l : List T × List (Op T K))).1 =
        ((collectList [Op.filterOp (fun x => p1 x && p2 x)] l : List T × List (Op T K))).1 := by
  intro l
  induction l with
  | nil => simp [collectList]
  | cons x xs ih =>
    cases h1 : p1 x <;> cases h2 : p2 x <;>
      simp [collectList, runOps, applyOp, h1, h2, ih]

/-- C6: collecting a cursor with `Filter p1` then `Filter p2` registered
yields the same result as collecting with the single conjunction filter;
e.g. source 1..9 with the evenness and divisibility-by-3 filters collects to
`[6]`. -/
theorem filter_fusion [Inhabited T] [BEq K] (l : List T) (p1 p2 : T → Bool) :
    (Collect (Filter (Filter (From l [] : iter T (Op T K)) p1) p2)).1 =
      (Collect (Filter (From l [] : iter T (Op T K)) (fun x => p1 x && p2 x))).1 ∧
    (Collect (Filter (Filter (From [1, 2, 3, 4, 5, 6, 7, 8, 9] [] : iter Int (Op Int Int))
        (fun x => decide (x % 2 = 0))) (fun x => decide (x % 3 = 0)))).1 = [6] := by
  constructor
  · rw [Collect_eq _ (Nat.zero_le _), Collect_eq _ (Nat.zero_le _)]
    show (collectList [Op.filterOp p1, Op.filterOp p2] l).1 =
      (collectList [Op.filterOp (fun x => p1 x && p2 x)] l).1
    exact collectList_filter_fusion p1 p2 l
  · rw [Collect_eq _ (by decide)]
    decide

/-- Model of a non-nil Go pointer: an address plus the pointed-to value (on a
well-formed heap the address determines the pointee).  Go equality of
pointers is address equality; on such a heap it coincides with equality of
both fields, which is the derived decidable equality. -/
structure GoPtr (V : Type) where
  addr : Nat
  pointee : V
deriving DecidableEq

instance {V : Type} [Inhabited V] : Inhabited (GoPtr V) := ⟨⟨0, default⟩⟩

/-- Key type of the seen map for pointer elements.  The Go map's keys have
interface type: a key can dynamically be a pointer or a dereferenced pointee,
and keys of different dynamic type are never equal — which this inductive
captures. -/
inductive MapKey (V : Type) where
  | ptr (p : GoPtr V)
  | val (v : V)
deriving DecidableEq

/-- Key the plain `Unique` filter stores in the seen map for a pointer
element: the pointer value itself. -/
def ptrPlainKey {V : Type} : GoPtr V → MapKey V := MapKey.ptr

/-- Key the `DerefPointers` variant stores in the seen map: the dereferenced
pointee value. -/
def ptrDerefKey {V : Type} : GoPtr V → MapKey V := fun p => MapKey.val p.pointee

/-- C7: on pointer elements, `Unique` under `DerefPointers true` deduplicates
by the pointee's natural equality — of two distinct references to equal
pointees only the first is kept — while without the option it deduplicates by
reference identity, so both are kept; and on a non-pointer element type
(runtime kind check false) `DerefPointers true` registers exactly the same
step as plain `Unique`. -/
theorem unique_deref_spec {V : Type} [DecidableEq V] [Inhabited V] (l : List (GoPtr V))
    (a : V) (n m : Nat) (hnm : n ≠ m) {A B : Type} (pk dk : A → B) (it : iter A (Op A B)) :
    (Collect (Unique (From l [] : iter (GoPtr V) (Op (GoPtr V) (MapKey V)))
        [DerefPointers true] true ptrPlainKey ptrDerefKey)).1 = dedupBy ptrDerefKey [] l ∧
    (Collect (Unique (From l [] : iter (GoPtr V) (Op (GoPtr V) (MapKey V)))
        [] true ptrPlainKey ptrDerefKey)).1 = dedupBy ptrPlainKey [] l ∧
    (Collect (Unique (From [⟨n, a⟩, ⟨m, a⟩] [] : iter (GoPtr V) (Op (GoPtr V) (MapKey V)))
        [DerefPointers true] true ptrPlainKey ptrDerefKey)).1 = [⟨n, a⟩] ∧
    (Collect (Unique (From [⟨n, a⟩, ⟨m, a⟩] [] : iter (GoPtr V) (Op (GoPtr V) (MapKey V)))
        [] true ptrPlainKey ptrDerefKey)).1 = [⟨n, a⟩, ⟨m, a⟩] ∧
    Unique it [DerefPointers true] false pk dk = Unique it [] false pk dk := by
  refine ⟨?_, ?_, ?_, ?_, ?_⟩
  · rw [Collect_eq _ (Nat.zero_le _)]
    show (collectList [Op.uniqueOp ptrDerefKey []] l).1 = dedupBy ptrDerefKey [] l
    rw [collectList_uniqueOp]
  · rw [Collect_eq _ (Nat.zero_le _)]
    show (collectList [Op.uniqueOp ptrPlainKey []] l).1 = dedupBy ptrPlainKey [] l
    rw [collectList_uniqueOp]
  · rw [Collect_eq _ (Nat.zero_le _)]
    show (collectList [Op.uniqueOp ptrDerefKey []] [⟨n, a⟩, ⟨m, a⟩]).1 = [⟨n, a⟩]
    rw [collectList_uniqueOp]
    show dedupBy ptrDerefKey [] [⟨n, a⟩, ⟨m, a⟩] = [⟨n, a⟩]
    simp [dedupBy, ptrDerefKey, List.contains_cons, beq_iff_eq]
  · rw [Collect_eq _ (Nat.zero_le _)]
    show (collectList [Op.uniqueOp ptrPlainKey []] [⟨n, a⟩, ⟨m, a⟩]).1 = [⟨n, a⟩, ⟨m, a⟩]
    rw [collectList_uniqueOp]
    show dedupBy ptrPlainKey [] [⟨n, a⟩, ⟨m, a⟩] = [⟨n, a⟩, ⟨m, a⟩]
    simp [dedupBy, ptrPlainKey, List.contains_cons, beq_eq_false_iff_ne, GoPtr.mk.injEq,
      Ne.symm hnm]
  · simp [Unique, DerefPointers, defaultUniqueOptions, Bool.and_false]

/-- Witness for C7: two pointers with addresses 1 and 2 to the pointee 5 —
the dereferencing `Unique` keeps only the first. -/
theorem unique_deref_spec_witness :
    (Collect (Unique
        (From [⟨1, 5⟩, ⟨2, 5⟩] [] : iter (GoPtr Int) (Op (GoPtr Int) (MapKey Int)))
        [DerefPointers true] true ptrPlainKey ptrDerefKey)).1 = [⟨1, 5⟩] :=
  (unique_deref_spec ([] : List (GoPtr Int)) (5 : Int) 1 2 (by decide)
    (id : Int → Int) (id : Int → Int) (From [] [] : iter Int (Op Int Int))).2.2.1

/-- Model of Go's `make` of a slice with length 0 and the given capacity:
a negative capacity is a runtime panic (modelled as `Except.error`),
otherwise an empty slice. -/
def makeWithCap (A : Type) (c : Int) : Except String (List A) :=
  if c < 0 then Except.error "makeslice: cap out of range" else Except.ok []

/-- Failure-aware model of `From`: identical to `From` except that the
`make` of the operations slice with the configured capacity is modelled
faithfully, so a negative `BufferLen` makes construction fail. -/
def FromE (source : List T) (opts : List (fromOptions → fromOptions)) :
    Except String (iter T O) :=
  let options := opts.foldl (fun o f => f o) defaultFromOptions
  (makeWithCap O options.bufferLen).map fun ops =>
    { threadSafe := options.threadSafe
      nextIndex := 0
      source := source
      operations := ops
      operationsCap := options.bufferLen }

theorem FromE_eq_ok (source : List T) (opts : List (fromOptions → fromOptions))
    (h : 0 ≤ (opts.foldl (fun o f => f o) defaultFromOptions).bufferLen) :
    FromE source opts = Except.ok (From source opts : iter T O) := by
  have hneg : ¬ (opts.foldl (fun o f => f o) defaultFromOptions).bufferLen < 0 :=
    Int.not_lt.mpr h
  simp [FromE, makeWithCap, From, hneg]
  rfl

/-- Failure-aware counterpart of `Op`: each contained function may abort the
evaluation (a Go panic propagating out of the closure), modelled with
`Except`.  `mapE` and `filterE` hold caller-supplied functions; `uniqueE`
holds the library-built keying function, which under `DerefPointers`
performs the reflective dereference and panics on a nil pointer. -/
inductive OpE (T K : Type) where
  | mapE (f : T → Except String T)
  | filterE (p : T → Except String Bool)
  | uniqueE (key : T → Except String K) (seen : List K)

/-- Failure-aware counterpart of `applyOp`. -/
def applyOpE [BEq K] (op : OpE T K) (m : maybe T) : Except String (maybe T × OpE T K) :=
  match op with
  | .mapE f => (f m.val).map fun v => ({ m with val := v }, .mapE f)
  | .filterE p => (p m.val).map fun b => ({ m with ok := b }, .filterE p)
  | .uniqueE key seen => (key m.val).map fun k =>
      if seen.contains k then ({ m with ok := false }, .uniqueE key seen)
      else ({ m with ok := true }, .uniqueE key (k :: seen))

/-- Failure-aware counterpart of `runOps`. -/
def runOpsE [BEq K] (ops : List (OpE T K)) (m : maybe T) :
    Except String (maybe T × List (OpE T K)) :=
  match ops with
  | [] => Except.ok (m, [])
  | op :: rest =>
    match applyOpE op m with
    | Except.error e => Except.error e
    | Except.ok r =>
      if r.1.ok then (runOpsE rest r.1).map fun r2 => (r2.1, r.2 :: r2.2)
      else Except.ok (r.1, r.2 :: rest)

/-- Failure-aware counterpart of `collectStep`. -/
def collectStepE [BEq K] (st : List (OpE T K) × List T) (val : T) :
    Except String (List (OpE T K) × List T) :=
  (runOpsE st.1 { ok := true, val := val }).map fun r =>
    (r.2, if r.1.ok then st.2 ++ [r.1.val] else st.2)

/-- Failure-aware counterpart of `ForEach`: a callback abort (panic) aborts
the whole loop immediately. -/
def ForEachE [Inhabited T] (fn : S → T → Except String S) (it : iter T O) (s : S) :
    Except String (iter T O × S) :=
  if h : ((Next it).1).2 = true then
    match fn s ((Next it).1).1 with
    | Except.error e => Except.error e
    | Except.ok s2 => ForEachE fn (Next it).2 s2
  else Except.ok ((Next it).2, s)
termination_by it.source.length - it.nextIndex
decreasing_by exact next_measure h

/-- Failure-aware counterpart of `Collect`. -/
def CollectE [Inhabited T] [BEq K] (it : iter T (OpE T K)) :
    Except String (List T × iter T (OpE T K)) :=
  (ForEachE collectStepE it (it.operations, ([] : List T))).map fun r =>
    (r.2.2, { r.1 with operations := r.2.1 })

/-- Failure-aware counterpart of `Reduce` (the reducer is the caller's and
may abort). -/
def ReduceE [Inhabited T] (it : iter T O) (fn : T → T → Except String T) (initial : T) :
    Except String (T × iter T O) :=
  (ForEachE (fun acc val => fn acc val) it initial).map fun r => (r.2, r.1)

/-- Failure-aware counterpart of `Unique`: the same registration logic, with
a possibly panicking keying function. -/
def UniqueE (it : iter T (OpE T K)) (opts : List (uniqueOptions → uniqueOptions))
    (isPtrType : Bool) (plainKey derefKey : T → Except String K) : iter T (OpE T K) :=
  let options := opts.foldl (fun o f => f o) defaultUniqueOptions
  let key := if options.deref && isPtrType then derefKey else plainKey
  { it with operations := it.operations ++ [OpE.uniqueE key []] }

/-- Key type of the seen map for possibly nil pointer elements. -/
inductive NilMapKey (V : Type) where
  | ptr (p : Option (GoPtr V))
  | val (v : V)
deriving DecidableEq

/-- The plain keying function on possibly nil pointers: total, a nil pointer
is an ordinary map key. -/
def plainKeyE {V : Type} (p : Option (GoPtr V)) : Except String (NilMapKey V) :=
  Except.ok (NilMapKey.ptr p)

/-- Model of the reflective dereference the `DerefPointers` filter performs
on a possibly nil pointer: dereferencing nil yields the zero reflect value,
whose interface extraction panics. -/
def derefKeyE {V : Type} : Option (GoPtr V) → Except String (NilMapKey V)
  | none => Except.error "reflect: call of reflect.Value.Interface on zero Value"
  | some p => Except.ok (NilMapKey.val p.pointee)

/-- Failure-aware left fold, aborting at the first error. -/
def foldlE (fn : S → T → Except String S) (s : S) : List T → Except String S
  | [] => Except.ok s
  | x :: xs =>
    match fn s x with
    | Except.error e => Except.error e
    | Except.ok s2 => foldlE fn s2 xs

theorem ForEachE_eq_aux [Inhabited T] (fn : S → T → Except String S) :
    ∀ (n : Nat) (it : iter T O) (s : S), it.source.length - it.nextIndex = n →
      it.nextIndex ≤ it.source.length →
      ForEachE fn it s =
        (foldlE fn s (it.source.drop it.nextIndex)).map
          fun s2 => ({ it with nextIndex := it.source.length }, s2) := by
  intro n
  induction n with
  | zero =>
    intro it s hn hle
    have hidx : it.nextIndex = it.source.length := by omega
    have hfalse : ((Next it).1).2 = false := by
      rw [Next_eq_next]; unfold next; rw [dif_pos (by omega)]
    have hsame : (Next it).2 = it := by
      rw [Next_eq_next]; unfold next; rw [dif_pos (by omega)]
    rw [ForEachE, dif_neg (by simp [hfalse]), hsame, hidx]
    rw [List.drop_length, ← hidx]
    rfl
  | succ n ih =>
    intro it s hn hle
    have hlt : it.nextIndex < it.source.length := by omega
    have htrue : ((Next it).1).2 = true := by
      rw [Next_eq_next]; unfold next; rw [dif_neg (by omega)]
    have hnext : Next it =
        ((it.source.get ⟨it.nextIndex, hlt⟩, true), { it with nextIndex := it.nextIndex + 1 }) := by
      rw [Next_eq_next]; unfold next; rw [dif_neg (by omega)]
    rw [ForEachE, dif_pos htrue, hnext]
    rw [List.drop_eq_getElem_cons hlt]
    cases hf : fn s (it.source.get ⟨it.nextIndex, hlt⟩) with
    | error e =>
      simp only [List.get_eq_getElem] at hf
      simp [foldlE, hf, Except.map]
    | ok s2 =>
      simp only [List.get_eq_getElem] at hf
      simp only [List.get_eq_getElem, hf]
      rw [ih { it with nextIndex := it.nextIndex + 1 } _ (by simp; omega) (by simp; omega)]
      simp [foldlE, hf]

theorem ForEachE_eq [Inhabited T] (fn : S → T → Except String S) (it : iter T O) (s : S)
    (h : it.nextIndex ≤ it.source.length) :
    ForEachE fn it s =
      (foldlE fn s (it.source.drop it.nextIndex)).map
        fun s2 => ({ it with nextIndex := it.source.length }, s2) :=
  ForEachE_eq_aux fn _ it s rfl h

theorem CollectE_eq [Inhabited T] [BEq K] (it : iter T (OpE T K))
    (h : it.nextIndex ≤ it.source.length) :
    CollectE it =
      (foldlE collectStepE (it.operations, ([] : List T)) (it.source.drop it.nextIndex)).map
        fun st => (st.2, { it with nextIndex := it.source.length, operations := st.1 }) := by
  unfold CollectE
  rw [ForEachE_eq _ it _ h]
  cases hfold : foldlE collectStepE (it.operations, ([] : List T))
      (it.source.drop it.nextIndex) <;> simp [hfold, Except.map]

/-- Totality of the functions contained in one failure-aware operation:
its map / filter / keying functions never abort. -/
def OpETotal : OpE T K → Prop
  | .mapE f => ∀ x, ∃ y, f x = Except.ok y
  | .filterE p => ∀ x, ∃ b, p x = Except.ok b
  | .uniqueE key _ => ∀ x, ∃ k, key x = Except.ok k

theorem applyOpE_total [BEq K] {op : OpE T K} (h : OpETotal op) (m : maybe T) :
    ∃ r, applyOpE op m = Except.ok r ∧ OpETotal r.2 := by
  cases op with
  | mapE f =>
    obtain ⟨y, hy⟩ := h m.val
    exact ⟨({ m with val := y }, .mapE f), by simp [applyOpE, hy, Except.map], h⟩
  | filterE p =>
    obtain ⟨b, hb⟩ := h m.val
    exact ⟨({ m with ok := b }, .filterE p), by simp [applyOpE, hb, Except.map], h⟩
  | uniqueE key seen =>
    obtain ⟨k, hk⟩ := h m.val
    cases hc : seen.contains k
    · exact ⟨({ m with ok := true }, .uniqueE key (k :: seen)),
        by simp [applyOpE, hk, hc, Except.map], h⟩
    · exact ⟨({ m with ok := false }, .uniqueE key seen),
        by simp [applyOpE, hk, hc, Except.map], h⟩

theorem runOpsE_total [BEq K] :
    ∀ (ops : List (OpE T K)) (m : maybe T), (∀ op ∈ ops, OpETotal op) →
      ∃ r, runOpsE ops m = Except.ok r ∧ ∀ op ∈ r.2, OpETotal op := by
  intro ops
  induction ops with
  | nil => intro m _; exact ⟨(m, []), rfl, by simp⟩
  | cons op rest ih =>
    intro m h
    obtain ⟨r1, hr1, hop1⟩ := applyOpE_total (h op (List.mem_cons_self op rest)) m
    have hrest : ∀ o ∈ rest, OpETotal o := fun o ho => h o (List.mem_cons_of_mem op ho)
    cases hok : r1.1.ok
    · refine ⟨(r1.1, r1.2 :: rest), by simp [runOpsE, hr1, hok], ?_⟩
      intro o ho
      rcases List.mem_cons.mp ho with h1 | h2
      · rw [h1]; exact hop1
      · exact hrest o h2
    · obtain ⟨r2, hr2, hops2⟩ := ih r1.1 hrest
      refine ⟨(r2.1, r1.2 :: r2.2), by simp [runOpsE, hr1, hok, hr2, Except.map], ?_⟩
      intro o ho
      rcases List.mem_cons.mp ho with h1 | h2
      · rw [h1]; exact hop1
      · exact hops2 o h2

theorem foldlE_collectStepE_total [BEq K] :
    ∀ (l : List T) (ops : List (OpE T K)) (acc : List T), (∀ op ∈ ops, OpETotal op) →
      ∃ r, foldlE collectStepE (ops, acc) l = Except.ok r ∧ ∀ op ∈ r.1, OpETotal op := by
  intro l
  induction l with
  | nil => intro ops acc h; exact ⟨(ops, acc), rfl, h⟩
  | cons x xs ih =>
    intro ops acc h
    obtain ⟨r, hr, hops⟩ := runOpsE_total ops { ok := true, val := x } h
    obtain ⟨r2, hr2, hops2⟩ := ih r.2 (if r.1.ok then acc ++ [r.1.val] else acc) hops
    refine ⟨r2, ?_, hops2⟩
    simp only [foldlE, collectStepE, hr, Except.map]
    exact hr2

theorem CollectE_total [Inhabited T] [BEq K] (it : iter T (OpE T K))
    (hpos : it.nextIndex ≤ it.source.length)
    (hops : ∀ op ∈ it.operations, OpETotal op) :
    ∃ r, CollectE it = Except.ok r := by
  obtain ⟨r, hr, _⟩ :=
    foldlE_collectStepE_total (it.source.drop it.nextIndex) it.operations [] hops
  exact ⟨_, by rw [CollectE_eq it hpos, hr]; rfl⟩

theorem foldlE_total (fn : S → T → Except String S)
    (hfn : ∀ s x, ∃ s2, fn s x = Except.ok s2) :
    ∀ (l : List T) (s : S), ∃ r, foldlE fn s l = Except.ok r := by
  intro l
  induction l with
  | nil => intro s; exact ⟨s, rfl⟩
  | cons x xs ih =>
    intro s
    obtain ⟨s2, hs2⟩ := hfn s x
    obtain ⟨r, hr⟩ := ih s2
    exact ⟨r, by simp [foldlE, hs2, hr]⟩

theorem ReduceE_total [Inhabited T] (it : iter T O) (fn : T → T → Except String T)
    (initial : T) (hpos : it.nextIndex ≤ it.source.length)
    (hfn : ∀ a b, ∃ c, fn a b = Except.ok c) :
    ∃ r, ReduceE it fn initial = Except.ok r := by
  obtain ⟨r, hr⟩ := foldlE_total (fun acc val => fn acc val) hfn
    (it.source.drop it.nextIndex) initial
  exact ⟨_, by unfold ReduceE; rw [ForEachE_eq _ it _ hpos, hr]; rfl⟩

/-- C9 counterexample: two library-internal failures.  (i) Construction with
a negative `BufferLen` fails inside `From` (`make` of the operations buffer
with negative capacity).  (ii) `Unique` with `DerefPointers true` over a
pointer source containing a nil pointer fails during `Collect` inside the
library's own filter — with no caller-supplied function registered at
all. -/
theorem no_failure_cex :
    FromE ([] : List Int) [BufferLen (-1)]
      = (Except.error "makeslice: cap out of range" : Except String (iter Int (Op Int Int))) ∧
    CollectE (UniqueE (From [some ⟨0, 7⟩, none] [] :
        iter (Option (GoPtr Int)) (OpE (Option (GoPtr Int)) (NilMapKey Int)))
        [DerefPointers true] true plainKeyE derefKeyE)
      = Except.error "reflect: call of reflect.Value.Interface on zero Value" := by
  constructor
  · rfl
  · rw [CollectE_eq _ (by decide)]
    rfl

/-- C9 amended: construction accepts any source sequence, including empty,
with any element type, and succeeds for every non-negative step-buffer hint;
an evaluation can fail only through one of the registered or caller-supplied
functions failing: when every registered operation's functions are total,
`CollectE` succeeds, and when the caller's reducer is total, `ReduceE`
succeeds.  Exceptions forced by the counterexample: a negative `BufferLen`
makes construction fail, and `Unique` under `DerefPointers true` fails on a
nil pointer element inside the library's own keying function. -/
theorem no_failure_amended [Inhabited T] [BEq K] (src : List T)
    (opts : List (fromOptions → fromOptions))
    (hbuf : 0 ≤ (opts.foldl (fun o f => f o) defaultFromOptions).bufferLen)
    (it : iter T (OpE T K)) (hpos : it.nextIndex ≤ it.source.length)
    (hops : ∀ op ∈ it.operations, OpETotal op)
    (fn : T → T → Except String T) (initial : T)
    (hfn : ∀ a b, ∃ c, fn a b = Except.ok c) :
    FromE src opts = Except.ok (From src opts : iter T (OpE T K)) ∧
    (∃ r, CollectE it = Except.ok r) ∧
    (∃ r, ReduceE it fn initial = Except.ok r) :=
  ⟨FromE_eq_ok src opts hbuf, CollectE_total it hpos hops,
    ReduceE_total it fn initial hpos hfn⟩

/-- Witness for the amended C9 at a concrete pipeline: a two-element integer
source, default construction, one plain `Unique` step, and a total sum
reducer. -/
theorem no_failure_amended_witness :
    FromE ([1, 2] : List Int) [] = Except.ok (From [1, 2] [] : iter Int (OpE Int Int)) ∧
    (∃ r, CollectE (UniqueE (From [1, 2] [] : iter Int (OpE Int Int)) [] false
        (fun x => Except.ok x) (fun x => Except.ok x)) = Except.ok r) ∧
    (∃ r, ReduceE (UniqueE (From [1, 2] [] : iter Int (OpE Int Int)) [] false
          (fun x => Except.ok x) (fun x => Except.ok x))
        (fun a b => Except.ok (a + b)) 0 = Except.ok r) :=
  no_failure_amended [1, 2] [] (by decide)
    (UniqueE (From [1, 2] [] : iter Int (OpE Int Int)) [] false
      (fun x => Except.ok x) (fun x => Except.ok x))
    (by decide)
    (by
      intro op hop
      have hops : (UniqueE (From [1, 2] [] : iter Int (OpE Int Int)) [] false
          (fun x => Except.ok x) (fun x => Except.ok x)).operations
          = [OpE.uniqueE (fun x => Except.ok x) []] := rfl
      rw [hops] at hop
      rw [List.mem_singleton.mp hop]
      exact fun x => ⟨x, rfl⟩)
    (fun a b => Except.ok (a + b)) 0 (fun a b => ⟨a + b, rfl⟩)

/-- One step-registration call, as a datum, for quantifying over every chain
of registered steps. -/
inductive Reg (T K : Type) where
  | rmap (f : T → T)
  | rfilter (p : T → Bool)
  | runiq (opts : List (uniqueOptions → uniqueOptions)) (isPtrType : Bool)
      (plainKey derefKey : T → K)

/-- Apply one registration call to a cursor. -/
def applyReg (it : iter T (Op T K)) : Reg T K → iter T (Op T K)
  | .rmap f => Map it f
  | .rfilter p => Filter it p
  | .runiq opts b pk dk => Unique it opts b pk dk

/-- Apply a chain of registration calls in order. -/
def applyRegs (it : iter T (Op T K)) (rs : List (Reg T K)) : iter T (Op T K) :=
  rs.foldl applyReg it

theorem applyRegs_setCap :
    ∀ (rs : List (Reg T K)) (it : iter T (Op T K)) (c : Int),
      applyRegs { it with operationsCap := c } rs
        = { applyRegs it rs with operationsCap := c } := by
  intro rs
  induction rs with
  | nil => intro it c; rfl
  | cons r rest ih =>
    intro it c
    have h : applyReg { it with operationsCap := c } r
        = { applyReg it r with operationsCap := c } := by
      cases r <;> rfl
    show applyRegs (applyReg { it with operationsCap := c } r) rest = _
    rw [h]
    exact ih (applyReg it r) c

theorem applyRegs_nextIndex :
    ∀ (rs : List (Reg T K)) (it : iter T (Op T K)),
      (applyRegs it rs).nextIndex = it.nextIndex ∧ (applyRegs it rs).source = it.source := by
  intro rs
  induction rs with
  | nil => intro it; exact ⟨rfl, rfl⟩
  | cons r rest ih =>
    intro it
    have h1 : (applyReg it r).nextIndex = it.nextIndex := by cases r <;> rfl
    have h2 : (applyReg it r).source = it.source := by cases r <;> rfl
    obtain ⟨g1, g2⟩ := ih (applyReg it r)
    exact ⟨by rw [show applyRegs it (r :: rest) = applyRegs (applyReg it r) rest from rfl, g1, h1],
      by rw [show applyRegs it (r :: rest) = applyRegs (applyReg it r) rest from rfl, g2, h2]⟩

theorem Next_fst_congr [Inhabited T] {P : Type} (it1 : iter T O) (it2 : iter T P)
    (hs : it1.source = it2.source) (hn : it1.nextIndex = it2.nextIndex) :
    (Next it1).1 = (Next it2).1 := by
  rw [Next_eq_next, Next_eq_next]
  unfold next
  by_cases hle : it1.source.length ≤ it1.nextIndex
  · rw [dif_pos hle, dif_pos (by rw [← hs, ← hn]; exact hle)]
  · rw [dif_neg hle, dif_neg (by rw [← hs, ← hn]; exact hle)]
    simp only [List.get_eq_getElem, hs, hn]

/-- C10 counterexample: with the default hint construction succeeds, while
with `BufferLen (-1)` the `make` of the operations buffer panics — an
observable difference in whether construction succeeds, refuting "any
stepBufferHint value". -/
theorem bufferLen_cex :
    FromE ([] : List Int) [] = Except.ok (From [] [] : iter Int (Op Int Int)) ∧
    FromE ([] : List Int) [BufferLen (-1)]
      = (Except.error "makeslice: cap out of range" : Except String (iter Int (Op Int Int))) :=
  ⟨rfl, rfl⟩

/-- C10 amended: for every non-negative buffer hint, construction succeeds
and produces a cursor that differs from the default-hint (64) cursor only in
the recorded buffer capacity; after any chain of step registrations, every
evaluation — `Next`, `Collect`, `Reduce`, `Channel`, `IntoChannel` — gives
identical results.  A negative hint, however, makes construction panic (see
the counterexample). -/
theorem bufferLen_spec [Inhabited T] [BEq K] (src : List T) (b : Int) (hb : 0 ≤ b)
    (rs : List (Reg T K)) (fn : T → T → T) (initial : T) (ch : Chan T) :
    FromE src [BufferLen b] = Except.ok (From src [BufferLen b] : iter T (Op T K)) ∧
    applyRegs (From src [BufferLen b]) rs
      = { applyRegs (From src []) rs with operationsCap := b } ∧
    (Next (applyRegs (From src [BufferLen b]) rs)).1
      = (Next (applyRegs (From src []) rs)).1 ∧
    (Collect (applyRegs (From src [BufferLen b]) rs)).1
      = (Collect (applyRegs (From src []) rs)).1 ∧
    (Reduce (applyRegs (From src [BufferLen b]) rs) fn initial).1
      = (Reduce (applyRegs (From src []) rs) fn initial).1 ∧
    (Channel (applyRegs (From src [BufferLen b]) rs)).1
      = (Channel (applyRegs (From src []) rs)).1 ∧
    (IntoChannel (applyRegs (From src [BufferLen b]) rs) ch []).1
      = (IntoChannel (applyRegs (From src []) rs) ch []).1 := by
  have hreg : applyRegs (From src [BufferLen b] : iter T (Op T K)) rs
      = { applyRegs (From src []) rs with operationsCap := b } :=
    applyRegs_setCap rs (From src []) b
  have hposd : (applyRegs (From src [] : iter T (Op T K)) rs).nextIndex
      ≤ (applyRegs (From src []) rs).source.length := by
    rw [(applyRegs_nextIndex rs (From src [])).1]
    exact Nat.zero_le _
  have hposb : ({ applyRegs (From src [] : iter T (Op T K)) rs with operationsCap := b
      } : iter T (Op T K)).nextIndex
      ≤ ({ applyRegs (From src []) rs with operationsCap := b } : iter T (Op T K)).source.length :=
    hposd
  refine ⟨FromE_eq_ok src [BufferLen b] hb, hreg, ?_, ?_, ?_, ?_, ?_⟩
  · rw [hreg]
    exact Next_fst_congr _ _ rfl rfl
  · rw [hreg, Collect_eq _ hposb, Collect_eq _ hposd]
  · rw [hreg, Reduce_eq _ fn initial hposb, Reduce_eq _ fn initial hposd]
  · unfold Channel
    rw [hreg, IntoChannel_eq _ _ _ hposb, IntoChannel_eq _ _ _ hposd]
  · rw [hreg, IntoChannel_eq _ _ _ hposb, IntoChannel_eq _ _ _ hposd]

/-- Witness for the amended C10 at hint 32, a two-element source and an
empty registration chain. -/
theorem bufferLen_spec_witness :
    (Collect (applyRegs (From [1, 2] [BufferLen 32] : iter Int (Op Int Int)) [])).1
      = (Collect (applyRegs (From [1, 2] [] : iter Int (Op Int Int)) [])).1 :=
  (bufferLen_spec [1, 2] 32 (by decide) [] (fun a b => a + b) 0
    { capacity := 0, buffer := [], closed := false }).2.2.2.1

end Iterator
